import Mathlib

/-!
Verification of the deferred-formatting logger (src/logger.h).

Modelling conventions (shallow embedding):

* Bytes are `Nat`; byte 0 is the C string terminator, byte 37 is the
  placeholder character `%`, byte 10 is the newline written by `std::endl`.
* A C string (`const char*`) is modelled by the list of bytes stored up to,
  but not including, its terminator; scanning functions treat the end of the
  list as the terminator and also stop at any embedded 0 byte, exactly as the
  C functions `strlen` / `strcpy` / `strstr` do.
* A trivially-copyable argument is modelled by `ScalarVal`: its width
  `size` (that is `sizeof(T)`), its object representation `bytes`
  (which in C++ always has exactly `sizeof(T)` bytes, recorded by `hsize`),
  and `render`, the text that `operator<<` produces from that
  representation. Copying the representation and reinterpreting it at the
  same type yields the same printed text, which is what `render` captures.
* An `std::ostream` is modelled as the list of bytes it has received, so a
  formatting routine returns the bytes it writes.
* The unreachable branch of `FormatArgs` where `strstr` returns a null
  pointer (and `s.write(format, placeholder-format)` would receive a negative
  count) is modelled by `Option.none`.
* The `assert` in `WriteLog` is modelled in its debug-build semantics:
  a failed assertion aborts the process, so `WriteLog` returns `none`
  instead of a record in that case.
-/

namespace Logger

namespace Detail

/-- One trivially-copyable logging argument: its `sizeof`, its object
representation, and the text `operator<<` produces for the value having that
representation. In C++ the representation always has exactly `sizeof(T)`
bytes; `hsize` records this fact. -/
structure ScalarVal where
  size : Nat
  bytes : List Nat
  render : List Nat → List Nat
  hsize : bytes.length = size

/-- A supported logging argument: a trivially-copyable value, a
`const char*` string (content before its terminator), or an `std::string`
(content, possibly with embedded 0 bytes). -/
inductive LogArg where
  | scalar (v : ScalarVal)
  | cstr (s : List Nat)
  | str (s : List Nat)

/-- The compile-time type of an argument, which is what the template
machinery of the source dispatches on: a trivially-copyable type of a given
`sizeof` and printing behaviour, `const char*`, or `std::string`. -/
inductive ArgTy where
  | scalarTy (size : Nat) (render : List Nat → List Nat)
  | cstrTy
  | strTy

/-- The compile-time type of a given argument value. -/
def tyOf : LogArg → ArgTy
  | LogArg.scalar v => ArgTy.scalarTy v.size v.render
  | LogArg.cstr _ => ArgTy.cstrTy
  | LogArg.str _ => ArgTy.strTy

/-- Well-formedness of a supported argument: text arguments are
null-terminated text, so their content holds no 0 byte. Scalars carry their
invariant (`hsize`) in `ScalarVal` already. -/
def WFArg : LogArg → Prop
  | LogArg.scalar _ => True
  | LogArg.cstr s => 0 ∉ s
  | LogArg.str s => 0 ∉ s

instance : DecidablePred WFArg := fun a =>
  match a with
  | LogArg.scalar _ => inferInstanceAs (Decidable True)
  | LogArg.cstr s => inferInstanceAs (Decidable (0 ∉ s))
  | LogArg.str s => inferInstanceAs (Decidable (0 ∉ s))

/-- Well-formedness of an argument list. -/
def WFArgs (args : List LogArg) : Prop := ∀ a ∈ args, WFArg a

instance (args : List LogArg) : Decidable (WFArgs args) :=
  inferInstanceAs (Decidable (∀ a ∈ args, WFArg a))

/-- Mirrors `sizeof_args`: the number of arguments of the call. -/
def sizeof_args (args : List LogArg) : Nat := args.length

/-- Mirrors `CountPlaceholders` (logger.h:28): counts the bytes equal to
`'%'` (37), stopping at the first 0 byte exactly as the source checks
`formatString[0] == '\0'` first. -/
def CountPlaceholders : List Nat → Nat
  | [] => 0
  | c :: rest =>
      if c == 0 then 0 else (if c == 37 then 1 else 0) + CountPlaceholders rest

/-- Mirrors `GetArgSize` (logger.h:41-48): `sizeof(arg)` for a
trivially-copyable argument, `strlen(str) + 1` for `const char*`,
`s.length() + 1` for `std::string`. -/
def GetArgSize : LogArg → Nat
  | LogArg.scalar v => v.size
  | LogArg.cstr s => s.length + 1
  | LogArg.str s => s.length + 1

/-- Mirrors `GetArgsSize` (logger.h:37, 52-56): base case 0, recursive case
`GetArgSize(arg) + GetArgsSize(args...)`. -/
def GetArgsSize : List LogArg → Nat
  | [] => 0
  | a :: args => GetArgSize a + GetArgsSize args

/-- Mirrors `CopyArg` (logger.h:62-78). The buffer is the list of bytes
written so far; the returned list extends it by this argument's encoding, so
the pointer advance of the source is the growth in length. A scalar stores
its object representation (`*reinterpret_cast<T*>(argsData) = arg`) and
advances by `sizeof(arg)`; a `const char*` is copied by `strcpy` including
the terminator, advancing `strlen(str) + 1`; an `std::string` goes through
`s.c_str()`, whose copy stops at the first embedded 0 byte. -/
def CopyArg : List Nat → LogArg → List Nat
  | argsData, LogArg.scalar v => argsData ++ v.bytes
  | argsData, LogArg.cstr s => argsData ++ s ++ [0]
  | argsData, LogArg.str s => argsData ++ s.takeWhile (· != 0) ++ [0]

/-- Mirrors `CopyArgs` (logger.h:83-91): base case returns the cursor,
recursive case writes one argument and continues with the tail. -/
def CopyArgs : List Nat → List LogArg → List Nat
  | argsData, [] => argsData
  | argsData, a :: args => CopyArgs (CopyArg argsData a) args

/-- Mirrors the `strlen`/`write` pair of `FormatArg<const char*>`
(logger.h:111-117): emit `strlen(argsData)` bytes, advance past them and the
terminator. `FormatArg<std::string>` (logger.h:119-123) delegates here. -/
def FormatArgCStr (argsData : List Nat) : List Nat × List Nat :=
  (argsData.take (argsData.takeWhile (· != 0)).length,
    argsData.drop ((argsData.takeWhile (· != 0)).length + 1))

/-- Mirrors `FormatArg` (logger.h:103-123), dispatched on the argument's
compile-time type: returns the bytes written to the stream and the advanced
payload cursor. The generic overload reinterprets `sizeof(Arg)` bytes and
prints them, advancing by `sizeof(Arg)`; the text overloads use
`FormatArgCStr`. -/
def FormatArg : ArgTy → List Nat → List Nat × List Nat
  | ArgTy.scalarTy size render, argsData =>
      (render (argsData.take size), argsData.drop size)
  | ArgTy.cstrTy, argsData => FormatArgCStr argsData
  | ArgTy.strTy, argsData => FormatArgCStr argsData

/-- Mirrors `strstr(format, "%")` (logger.h:128): scan for the first `'%'`
byte, stopping at a 0 byte. Instead of the raw pointer the model returns the
split the source immediately derives from it: the literal text before the
placeholder (`placeholder - format` bytes) and the tail following it
(`placeholder + 1`). `none` is the null-pointer result. -/
def strchrPercent : List Nat → Option (List Nat × List Nat)
  | [] => none
  | c :: rest =>
      if c == 0 then none
      else if c == 37 then some ([], rest)
      else
        match strchrPercent rest with
        | none => none
        | some (pre, suf) => some (c :: pre, suf)

/-- Mirrors `FormatArgs` (logger.h:96-131). Base case (zero remaining
argument types): `s << format << std::endl`, i.e. the format bytes up to
their terminator followed by one newline. Recursive case: find the next
placeholder by `strstr`; on the null result the source performs
`s.write(format, placeholder - format)` with a negative count, which is the
unreachable fault branch, modelled as `none`; otherwise write the literal
text before the placeholder, decode and print one argument with `FormatArg`,
and continue after the placeholder with the advanced cursor. -/
def FormatArgs : List ArgTy → List Nat → List Nat → Option (List Nat)
  | [], format, _buffer => some (format.takeWhile (· != 0) ++ [10])
  | ty :: tys, format, buffer =>
      match strchrPercent format, FormatArg ty buffer with
      | none, _ => none
      | some (pre, suf), (out, buffer2) =>
          (FormatArgs tys suf buffer2).map (fun tail => pre ++ out ++ tail)

/-- The successive payload cursors of the chained `FormatArg` calls in
`FormatArgs` (logger.h:130): what remains of the payload after decoding the
given list of argument types. -/
def decodeRest : List ArgTy → List Nat → List Nat
  | [], buffer => buffer
  | ty :: tys, buffer => decodeRest tys (FormatArg ty buffer).2

/-- Mirrors `Header` (logger.h:142-147): payload size, the format string
(a program-lifetime literal, modelled by its content), and the bound
formatter `FormatArgs<Args...>` as a plain function value. -/
structure Header where
  ArgsSize : Nat
  FormatString : List Nat
  Formatter : List Nat → List Nat → Option (List Nat)

/-- The write region assembled by `WriteLog`: the size requested from
`GetWriteBuffer`, the offsets of the header and of the serialized arguments
inside the region (`data` and `data + sizeof(Header)`), the stored header
and the payload bytes. `sizeof(Header)` is left abstract as a parameter. -/
structure LogRecord where
  regionSize : Nat
  headerOffset : Nat
  argsOffset : Nat
  header : Header
  payload : List Nat

/-- Mirrors `WriteLog` (logger.h:152-171): compute `argsSize`, acquire
`argsSize + sizeof(Header)` bytes, place the header at the start of the
region and the serialized arguments right after it, store
`{argsSize, formatString, FormatArgs<Args...>}`, copy the arguments, and
`assert(end - argsBuffer == argsSize)`. In debug-build semantics a failed
assertion aborts, so no record is produced then (`none`). -/
def WriteLog (sizeofHeader : Nat) (formatString : List Nat)
    (args : List LogArg) : Option LogRecord :=
  if (CopyArgs [] args).length = GetArgsSize args then
    some ⟨GetArgsSize args + sizeofHeader, 0, sizeofHeader,
      ⟨GetArgsSize args, formatString, FormatArgs (args.map tyOf)⟩,
      CopyArgs [] args⟩
  else none

/-- Mirrors the `LOG` macro (logger.h:177-181): the
`static_assert(CountPlaceholders(formatString) == sizeof_args(...))` rejects
the call before `WriteLog` runs; a rejected call produces nothing. -/
def LOG (sizeofHeader : Nat) (formatString : List Nat)
    (args : List LogArg) : Option LogRecord :=
  if CountPlaceholders formatString = sizeof_args args then
    WriteLog sizeofHeader formatString args
  else none

/-- Spec-side text of one argument when it is formatted directly in place:
a scalar prints via its `render`, a `const char*` prints its content, an
`std::string` prints its full content. -/
def directArgText : LogArg → List Nat
  | LogArg.scalar v => v.render v.bytes
  | LogArg.cstr s => s
  | LogArg.str s => s

/-- Spec-side split of a format string at its first placeholder marker. -/
def splitAtPercent : List Nat → Option (List Nat × List Nat)
  | [] => none
  | c :: rest =>
      if c == 37 then some ([], rest)
      else
        match splitAtPercent rest with
        | none => none
        | some (pre, suf) => some (c :: pre, suf)

/-- Reference formatter following the spec's words: substitute the
arguments left-to-right at each `%` placeholder of the format string,
emitting the remaining literal text and a line terminator at the end.
`none` when an argument has no placeholder left. -/
def directFormat : List Nat → List LogArg → Option (List Nat)
  | format, [] => some (format ++ [10])
  | format, a :: args =>
      match splitAtPercent format with
      | none => none
      | some (pre, suf) =>
          (directFormat suf args).map (fun tail => pre ++ directArgText a ++ tail)

/-- Spec-side count of placeholder markers in a byte list. -/
def percentCount : List Nat → Nat
  | [] => 0
  | c :: rest => (if c == 37 then 1 else 0) + percentCount rest

/-! Auxiliary lemmas about byte lists. -/

theorem takeWhile_of_no_zero (s : List Nat) (h : 0 ∉ s) :
    s.takeWhile (· != 0) = s := by
  induction s with
  | nil => rfl
  | cons c rest ih =>
      have hc : c ≠ 0 := fun hc0 => h (hc0 ▸ List.mem_cons_self c rest)
      have hrest : 0 ∉ rest := fun hm => h (List.mem_cons_of_mem c hm)
      simp [List.takeWhile_cons, hc, ih hrest]

theorem takeWhile_until_zero (s t : List Nat) (h : 0 ∉ s) :
    (s ++ 0 :: t).takeWhile (· != 0) = s := by
  induction s with
  | nil => simp [List.takeWhile_cons]
  | cons c rest ih =>
      have hc : c ≠ 0 := fun hc0 => h (hc0 ▸ List.mem_cons_self c rest)
      have hrest : 0 ∉ rest := fun hm => h (List.mem_cons_of_mem c hm)
      simp [List.takeWhile_cons, hc, ih hrest]

theorem percentCount_append (s t : List Nat) :
    percentCount (s ++ t) = percentCount s + percentCount t := by
  induction s with
  | nil => simp [percentCount]
  | cons c rest ih => simp [percentCount, ih, Nat.add_assoc]

theorem countPlaceholders_eq_percentCount (f : List Nat) (h : 0 ∉ f) :
    CountPlaceholders f = percentCount f := by
  induction f with
  | nil => rfl
  | cons c rest ih =>
      have hc : c ≠ 0 := fun hc0 => h (hc0 ▸ List.mem_cons_self c rest)
      have hrest : 0 ∉ rest := fun hm => h (List.mem_cons_of_mem c hm)
      simp [CountPlaceholders, percentCount, hc, ih hrest]

/-! Properties of the spec-side placeholder split and its agreement with the
source's `strstr` scan. -/

theorem splitAtPercent_eq_some (f pre suf : List Nat)
    (h : splitAtPercent f = some (pre, suf)) :
    f = pre ++ 37 :: suf ∧ percentCount pre = 0 := by
  induction f generalizing pre suf with
  | nil => simp [splitAtPercent] at h
  | cons c rest ih =>
      by_cases hc : c = 37
      · subst hc
        simp [splitAtPercent] at h
        obtain ⟨h1, h2⟩ := h
        subst h1; subst h2
        exact ⟨rfl, rfl⟩
      · have hcb : (c == 37) = false := by
          exact beq_false_of_ne hc
        simp only [splitAtPercent, hcb, Bool.false_eq_true, if_false] at h
        cases hsplit : splitAtPercent rest with
        | none => rw [hsplit] at h; simp at h
        | some pr =>
            obtain ⟨pre0, suf0⟩ := pr
            rw [hsplit] at h
            simp at h
            obtain ⟨h1, h2⟩ := h
            obtain ⟨hf, hp⟩ := ih pre0 suf0 hsplit
            subst h1; subst h2
            constructor
            · simp [hf]
            · simp [percentCount, hcb, hp]

theorem splitAtPercent_isSome (f : List Nat) (h : 1 ≤ percentCount f) :
    ∃ pre suf, splitAtPercent f = some (pre, suf) := by
  induction f with
  | nil => simp [percentCount] at h
  | cons c rest ih =>
      by_cases hc : c = 37
      · subst hc
        exact ⟨[], rest, rfl⟩
      · have hcb : (c == 37) = false := beq_false_of_ne hc
        have hrest : 1 ≤ percentCount rest := by
          simpa [percentCount, hcb] using h
        obtain ⟨pre, suf, hsplit⟩ := ih hrest
        refine ⟨c :: pre, suf, ?_⟩
        simp [splitAtPercent, hcb, hsplit]

theorem strchrPercent_eq_split (f : List Nat) (h : 0 ∉ f) :
    strchrPercent f = splitAtPercent f := by
  induction f with
  | nil => rfl
  | cons c rest ih =>
      have hc : c ≠ 0 := fun hc0 => h (hc0 ▸ List.mem_cons_self c rest)
      have hrest : 0 ∉ rest := fun hm => h (List.mem_cons_of_mem c hm)
      simp [strchrPercent, splitAtPercent, hc, ih hrest]

/-! Serialization lemmas. -/

theorem copyArg_append (buf : List Nat) (a : LogArg) :
    CopyArg buf a = buf ++ CopyArg [] a := by
  cases a <;> simp [CopyArg]

theorem copyArgs_append (buf : List Nat) (args : List LogArg) :
    CopyArgs buf args = buf ++ CopyArgs [] args := by
  induction args generalizing buf with
  | nil => simp [CopyArgs]
  | cons a rest ih =>
      show CopyArgs (CopyArg buf a) rest = buf ++ CopyArgs (CopyArg [] a) rest
      rw [ih (CopyArg buf a), ih (CopyArg [] a), copyArg_append buf a,
        List.append_assoc]

theorem copyArgs_cons (a : LogArg) (args : List LogArg) :
    CopyArgs [] (a :: args) = CopyArg [] a ++ CopyArgs [] args := by
  show CopyArgs (CopyArg [] a) args = CopyArg [] a ++ CopyArgs [] args
  exact copyArgs_append (CopyArg [] a) args

theorem copyArg_length (a : LogArg) (h : WFArg a) :
    (CopyArg [] a).length = GetArgSize a := by
  cases a with
  | scalar v => simpa [CopyArg, GetArgSize] using v.hsize
  | cstr s => simp [CopyArg, GetArgSize]
  | str s =>
      have hs : 0 ∉ s := h
      simp [CopyArg, GetArgSize, takeWhile_of_no_zero s hs]

theorem copyArgs_length (args : List LogArg) (h : WFArgs args) :
    (CopyArgs [] args).length = GetArgsSize args := by
  induction args with
  | nil => rfl
  | cons a rest ih =>
      have ha : WFArg a := h a (List.mem_cons_self a rest)
      have hrest : WFArgs rest := fun x hx => h x (List.mem_cons_of_mem a hx)
      rw [copyArgs_cons]
      simp [GetArgsSize, copyArg_length a ha, ih hrest]

/-! Decoding lemmas: each `FormatArg` call consumes exactly the bytes its
argument was encoded into and reproduces the directly-formatted text. -/

theorem take_append_length (s t : List Nat) : (s ++ t).take s.length = s :=
  List.take_left s t

theorem drop_append_length (s t : List Nat) : (s ++ t).drop s.length = t :=
  List.drop_left s t

theorem formatArgCStr_encode (s rest : List Nat) (h : 0 ∉ s) :
    FormatArgCStr (s ++ 0 :: rest) = (s, rest) := by
  have htw : (s ++ 0 :: rest).takeWhile (· != 0) = s := takeWhile_until_zero s rest h
  have hdrop : (s ++ 0 :: rest).drop (s.length + 1) = rest := by
    have heq : s ++ 0 :: rest = (s ++ [0]) ++ rest := by simp
    have hlen : (s ++ [0]).length = s.length + 1 := by simp
    rw [heq, ← hlen]
    exact drop_append_length (s ++ [0]) rest
  simp [FormatArgCStr, htw, take_append_length s (0 :: rest), hdrop]

theorem formatArg_encode (a : LogArg) (rest : List Nat) (h : WFArg a) :
    FormatArg (tyOf a) (CopyArg [] a ++ rest) = (directArgText a, rest) := by
  cases a with
  | scalar v =>
      have htake : (v.bytes ++ rest).take v.size = v.bytes := by
        rw [← v.hsize]; exact take_append_length v.bytes rest
      have hdrop : (v.bytes ++ rest).drop v.size = rest := by
        rw [← v.hsize]; exact drop_append_length v.bytes rest
      simp [tyOf, CopyArg, FormatArg, directArgText, htake, hdrop]
  | cstr s =>
      have hs : 0 ∉ s := h
      have : ([] ++ s ++ [0]) ++ rest = s ++ 0 :: rest := by simp
      simp only [tyOf, CopyArg, FormatArg, directArgText, this]
      exact formatArgCStr_encode s rest hs
  | str s =>
      have hs : 0 ∉ s := h
      have htw : s.takeWhile (· != 0) = s := takeWhile_of_no_zero s hs
      have : ([] ++ s.takeWhile (· != 0) ++ [0]) ++ rest = s ++ 0 :: rest := by
        simp [htw]
      simp only [tyOf, CopyArg, FormatArg, directArgText, this]
      exact formatArgCStr_encode s rest hs

theorem decodeRest_encode (args : List LogArg) (extra : List Nat)
    (h : WFArgs args) :
    decodeRest (args.map tyOf) (CopyArgs [] args ++ extra) = extra := by
  induction args generalizing extra with
  | nil => rfl
  | cons a rest ih =>
      have ha : WFArg a := h a (List.mem_cons_self a rest)
      have hrest : WFArgs rest := fun x hx => h x (List.mem_cons_of_mem a hx)
      have hsplit : CopyArgs [] (a :: rest) ++ extra =
          CopyArg [] a ++ (CopyArgs [] rest ++ extra) := by
        rw [copyArgs_cons, List.append_assoc]
      simp only [List.map_cons, decodeRest, hsplit,
        formatArg_encode a (CopyArgs [] rest ++ extra) ha]
      exact ih extra hrest

/-! The main refinement lemma: the bound formatter applied to the serialized
payload agrees with the spec's direct substitution. -/

theorem formatArgs_direct (args : List LogArg) (format : List Nat)
    (hargs : WFArgs args) (hf : 0 ∉ format)
    (hcount : CountPlaceholders format = args.length) :
    FormatArgs (args.map tyOf) format (CopyArgs [] args) =
      directFormat format args := by
  induction args generalizing format with
  | nil =>
      simp [FormatArgs, directFormat, CopyArgs, takeWhile_of_no_zero format hf]
  | cons a rest ih =>
      have ha : WFArg a := hargs a (List.mem_cons_self a rest)
      have hrest : WFArgs rest := fun x hx => hargs x (List.mem_cons_of_mem a hx)
      have hpc : percentCount format = rest.length + 1 := by
        rw [← countPlaceholders_eq_percentCount format hf, hcount]
        simp
      obtain ⟨pre, suf, hsplit⟩ :=
        splitAtPercent_isSome format (by rw [hpc]; exact Nat.succ_le_succ (Nat.zero_le _))
      obtain ⟨hfeq, hpre⟩ := splitAtPercent_eq_some format pre suf hsplit
      have hsuf0 : 0 ∉ suf := by
        intro hm
        exact hf (hfeq ▸ List.mem_append_right pre (List.mem_cons_of_mem 37 hm))
      have hsufcount : CountPlaceholders suf = rest.length := by
        rw [countPlaceholders_eq_percentCount suf hsuf0]
        have : percentCount format = percentCount pre + (1 + percentCount suf) := by
          rw [hfeq, percentCount_append]
          simp [percentCount]
        omega
      have hbuf : CopyArgs [] (a :: rest) =
          CopyArg [] a ++ CopyArgs [] rest := copyArgs_cons a rest
      have hstr : strchrPercent format = some (pre, suf) := by
        rw [strchrPercent_eq_split format hf, hsplit]
      simp only [List.map_cons, FormatArgs, hstr, hbuf,
        formatArg_encode a (CopyArgs [] rest) ha, directFormat, hsplit,
        ih suf hrest hsuf0 hsufcount]

theorem directFormat_isSome (args : List LogArg) (format : List Nat)
    (h : args.length ≤ percentCount format) :
    (directFormat format args).isSome := by
  induction args generalizing format with
  | nil => simp [directFormat]
  | cons a rest ih =>
      obtain ⟨pre, suf, hsplit⟩ := splitAtPercent_isSome format
        (Nat.le_trans (Nat.succ_le_succ (Nat.zero_le _)) (by simpa using h))
      obtain ⟨hfeq, hpre⟩ := splitAtPercent_eq_some format pre suf hsplit
      have hcount : rest.length ≤ percentCount suf := by
        have : percentCount format = percentCount pre + (1 + percentCount suf) := by
          rw [hfeq, percentCount_append]
          simp [percentCount]
        simp only [List.length_cons] at h
        omega
      obtain ⟨t, ht⟩ := Option.isSome_iff_exists.mp (ih suf hcount)
      simp [directFormat, hsplit, ht]

theorem formatArgs_isSome (tys : List ArgTy) (format buffer : List Nat)
    (hf : 0 ∉ format) (h : tys.length ≤ CountPlaceholders format) :
    (FormatArgs tys format buffer).isSome := by
  induction tys generalizing format buffer with
  | nil => simp [FormatArgs]
  | cons ty rest ih =>
      rw [countPlaceholders_eq_percentCount format hf] at h
      obtain ⟨pre, suf, hsplit⟩ := splitAtPercent_isSome format
        (Nat.le_trans (Nat.succ_le_succ (Nat.zero_le _)) (by simpa using h))
      obtain ⟨hfeq, hpre⟩ := splitAtPercent_eq_some format pre suf hsplit
      have hsuf0 : 0 ∉ suf := by
        intro hm
        exact hf (hfeq ▸ List.mem_append_right pre (List.mem_cons_of_mem 37 hm))
      have hcount : rest.length ≤ CountPlaceholders suf := by
        rw [countPlaceholders_eq_percentCount suf hsuf0]
        have : percentCount format = percentCount pre + (1 + percentCount suf) := by
          rw [hfeq, percentCount_append]
          simp [percentCount]
        simp only [List.length_cons] at h
        omega
      have hstr : strchrPercent format = some (pre, suf) := by
        rw [strchrPercent_eq_split format hf, hsplit]
      obtain ⟨t, ht⟩ := Option.isSome_iff_exists.mp
        (ih suf (FormatArg ty buffer).2 hsuf0 hcount)
      simp [FormatArgs, hstr, ht]

/-! Claim theorems. -/

/-- C1: for every supported argument list (trivially-copyable values and
null-terminated text) whose placeholder count matches, serializing with
`CopyArgs` and then formatting the payload with the bound
`FormatArgs` instance for those argument types produces exactly the text of
formatting the arguments directly in place, substituting left-to-right at
each `%` placeholder, followed by a line terminator; and that text exists
(the formatter does not hit its fault branch). -/
theorem serialize_then_format_eq_direct (args : List LogArg) (format : List Nat)
    (hargs : WFArgs args) (hf : 0 ∉ format)
    (hcount : CountPlaceholders format = args.length) :
    FormatArgs (args.map tyOf) format (CopyArgs [] args) =
      directFormat format args ∧ (directFormat format args).isSome := by
  refine ⟨formatArgs_direct args format hargs hf hcount, ?_⟩
  apply directFormat_isSome
  rw [← countPlaceholders_eq_percentCount format hf, hcount]

/-- Witness for C1 at format "u% %" with a text argument "a" and a 2-byte
scalar argument. -/
theorem serialize_then_format_eq_direct_witness :
    WFArgs [LogArg.cstr [97], LogArg.scalar ⟨2, [5, 6], fun b => 57 :: b, rfl⟩] ∧
      (0 : Nat) ∉ [117, 37, 32, 37] ∧
      CountPlaceholders [117, 37, 32, 37] =
        [LogArg.cstr [97], LogArg.scalar ⟨2, [5, 6], fun b => 57 :: b, rfl⟩].length ∧
      (FormatArgs
          ([LogArg.cstr [97],
            LogArg.scalar ⟨2, [5, 6], fun b => 57 :: b, rfl⟩].map tyOf)
          [117, 37, 32, 37]
          (CopyArgs [] [LogArg.cstr [97],
            LogArg.scalar ⟨2, [5, 6], fun b => 57 :: b, rfl⟩]) =
        directFormat [117, 37, 32, 37]
          [LogArg.cstr [97], LogArg.scalar ⟨2, [5, 6], fun b => 57 :: b, rfl⟩] ∧
        (directFormat [117, 37, 32, 37]
          [LogArg.cstr [97],
            LogArg.scalar ⟨2, [5, 6], fun b => 57 :: b, rfl⟩]).isSome) :=
  ⟨by decide, by decide, by decide,
    serialize_then_format_eq_direct _ _ (by decide) (by decide) (by decide)⟩

/-- C2: encoding a supported argument list consumes exactly the byte count
`GetArgsSize` predicts, and the chained `FormatArg` decode steps consume
exactly the encoded bytes: starting from the payload extended by any suffix,
the final cursor is exactly that suffix, so decoding neither overruns the
payload nor leaves payload bytes unconsumed. -/
theorem encode_decode_size_exact (args : List LogArg) (extra : List Nat)
    (h : WFArgs args) :
    (CopyArgs [] args).length = GetArgsSize args ∧
      decodeRest (args.map tyOf) (CopyArgs [] args ++ extra) = extra :=
  ⟨copyArgs_length args h, decodeRest_encode args extra h⟩

/-- Witness for C2 at a text argument "hi" and a 1-byte scalar argument. -/
theorem encode_decode_size_exact_witness :
    WFArgs [LogArg.cstr [104, 105], LogArg.scalar ⟨1, [255], fun _ => [120], rfl⟩] ∧
      ((CopyArgs []
          [LogArg.cstr [104, 105],
            LogArg.scalar ⟨1, [255], fun _ => [120], rfl⟩]).length =
        GetArgsSize [LogArg.cstr [104, 105],
          LogArg.scalar ⟨1, [255], fun _ => [120], rfl⟩] ∧
        decodeRest
          ([LogArg.cstr [104, 105],
            LogArg.scalar ⟨1, [255], fun _ => [120], rfl⟩].map tyOf)
          (CopyArgs [] [LogArg.cstr [104, 105],
            LogArg.scalar ⟨1, [255], fun _ => [120], rfl⟩] ++ [9, 9]) = [9, 9]) :=
  ⟨by decide, encode_decode_size_exact _ [9, 9] (by decide)⟩

/-- C3: for every supported argument list the end cursor `CopyArgs` returns
is exactly `GetArgsSize` bytes past the start of the destination, so the
`assert(end - argsBuffer == argsSize)` in `WriteLog` holds and a record is
produced; and whenever the serialized length differs from the computed size,
`WriteLog` halts (debug-build assertion) and produces no record. -/
theorem writeLog_assert_never_fires (sizeofHeader : Nat) (format : List Nat)
    (args : List LogArg) (h : WFArgs args) :
    (CopyArgs [] args).length = GetArgsSize args ∧
      (WriteLog sizeofHeader format args).isSome ∧
      (∀ args2 : List LogArg,
        (CopyArgs [] args2).length ≠ GetArgsSize args2 →
        WriteLog sizeofHeader format args2 = none) := by
  have hlen := copyArgs_length args h
  refine ⟨hlen, ?_, ?_⟩
  · simp [WriteLog, hlen]
  · intro args2 hne
    simp [WriteLog, hne]

/-- Witness for C3 at an `std::string` argument "a". -/
theorem writeLog_assert_never_fires_witness :
    WFArgs [LogArg.str [97]] ∧
      ((CopyArgs [] [LogArg.str [97]]).length = GetArgsSize [LogArg.str [97]] ∧
        (WriteLog 24 [104] [LogArg.str [97]]).isSome ∧
        (∀ args2 : List LogArg,
          (CopyArgs [] args2).length ≠ GetArgsSize args2 →
          WriteLog 24 [104] args2 = none)) :=
  ⟨by decide, writeLog_assert_never_fires 24 [104] [LogArg.str [97]] (by decide)⟩

/-- C4: `GetArgsSize` returns the sum, in call order, of the per-argument
sizes, where a trivially-copyable argument contributes `sizeof(type)`, a
text argument (`const char*` or `std::string`) contributes `length + 1`,
and the empty list sums to 0. It is a pure function of its arguments. -/
theorem getArgsSize_rules :
    (∀ args : List LogArg, GetArgsSize args = (args.map GetArgSize).sum) ∧
      GetArgsSize [] = 0 ∧
      (∀ v : ScalarVal, GetArgSize (LogArg.scalar v) = v.size) ∧
      (∀ s : List Nat, GetArgSize (LogArg.cstr s) = s.length + 1) ∧
      (∀ s : List Nat, GetArgSize (LogArg.str s) = s.length + 1) := by
  refine ⟨?_, rfl, fun v => rfl, fun s => rfl, fun s => rfl⟩
  intro args
  induction args with
  | nil => rfl
  | cons a rest ih => simp [GetArgsSize, ih]

/-- C5: when the number of placeholder markers counted by
`CountPlaceholders` differs from the argument count, the static check of the
`LOG` macro rejects the call and no record is ever created; when the counts
agree the check passes and the call proceeds to `WriteLog`. -/
theorem log_mismatch_no_record (sizeofHeader : Nat) (format : List Nat)
    (args : List LogArg)
    (h : CountPlaceholders format ≠ sizeof_args args) :
    LOG sizeofHeader format args = none ∧
      (∀ (f2 : List Nat) (a2 : List LogArg),
        CountPlaceholders f2 = sizeof_args a2 →
        LOG sizeofHeader f2 a2 = WriteLog sizeofHeader f2 a2) := by
  constructor
  · simp [LOG, h]
  · intro f2 a2 h2
    simp [LOG, h2]

/-- Witness for C5 at format "%%" with an empty argument list. -/
theorem log_mismatch_no_record_witness :
    LOG 24 [37, 37] [] = none ∧
      (∀ (f2 : List Nat) (a2 : List LogArg),
        CountPlaceholders f2 = sizeof_args a2 →
        LOG 24 f2 a2 = WriteLog 24 f2 a2) :=
  log_mismatch_no_record 24 [37, 37] [] (by decide)

/-- C6: the zero-argument `FormatArgs` base case emits the format string
unmodified followed by exactly one line terminator, for every payload
buffer (it reads no payload bytes). -/
theorem formatArgs_zero_args (format buffer : List Nat) (h : 0 ∉ format) :
    FormatArgs [] format buffer = some (format ++ [10]) := by
  simp [FormatArgs, takeWhile_of_no_zero format h]

/-- Witness for C6 at format "hi" and a nonempty buffer. -/
theorem formatArgs_zero_args_witness :
    (0 : Nat) ∉ [104, 105] ∧
      FormatArgs [] [104, 105] [1, 2, 3] = some ([104, 105] ++ [10]) :=
  ⟨by decide, formatArgs_zero_args [104, 105] [1, 2, 3] (by decide)⟩

/-- C7: an empty text argument is sized as exactly one byte by `GetArgSize`,
encoded as the terminator alone by `CopyArg`, and decoded by the text
`FormatArg` as an empty substitution: zero bytes are emitted and the cursor
advances by exactly one byte. -/
theorem empty_text_argument :
    GetArgSize (LogArg.cstr []) = 1 ∧ GetArgSize (LogArg.str []) = 1 ∧
      (∀ buf : List Nat, CopyArg buf (LogArg.cstr []) = buf ++ [0] ∧
        CopyArg buf (LogArg.str []) = buf ++ [0]) ∧
      (∀ rest : List Nat, FormatArg ArgTy.cstrTy (0 :: rest) = ([], rest) ∧
        FormatArg ArgTy.strTy (0 :: rest) = ([], rest)) := by
  refine ⟨rfl, rfl, fun buf => ⟨by simp [CopyArg], by simp [CopyArg]⟩,
    fun rest => ⟨?_, ?_⟩⟩
  · simp [FormatArg, FormatArgCStr, List.takeWhile_cons]
  · simp [FormatArg, FormatArgCStr, List.takeWhile_cons]

/-- C8: `WriteLog` acquires `GetArgsSize + sizeof(Header)` bytes and lays
the record out with the header `{ArgsSize, FormatString, Formatter}` at the
start of the region and the serialized arguments immediately after the
first `sizeof(Header)` bytes, binding the formatter specialized to the
argument types, so a consumer can dispatch from the header alone. -/
theorem writeLog_header_layout (sizeofHeader : Nat) (format : List Nat)
    (args : List LogArg) (h : WFArgs args) :
    WriteLog sizeofHeader format args =
      some ⟨GetArgsSize args + sizeofHeader, 0, sizeofHeader,
        ⟨GetArgsSize args, format, FormatArgs (args.map tyOf)⟩,
        CopyArgs [] args⟩ := by
  simp [WriteLog, copyArgs_length args h]

/-- Witness for C8 at a text argument "a". -/
theorem writeLog_header_layout_witness :
    WFArgs [LogArg.cstr [97]] ∧
      WriteLog 16 [122] [LogArg.cstr [97]] =
        some ⟨GetArgsSize [LogArg.cstr [97]] + 16, 0, 16,
          ⟨GetArgsSize [LogArg.cstr [97]], [122],
            FormatArgs ([LogArg.cstr [97]].map tyOf)⟩,
          CopyArgs [] [LogArg.cstr [97]]⟩ :=
  ⟨by decide, writeLog_header_layout 16 [122] [LogArg.cstr [97]] (by decide)⟩

/-- C9: `CountPlaceholders` counts every `%` byte before the first 0 byte of
the format string, with no escape mechanism; in particular two consecutive
`%` bytes count as two placeholders. -/
theorem countPlaceholders_counts_all_percents :
    (∀ f : List Nat,
      CountPlaceholders f = percentCount (f.takeWhile (· != 0))) ∧
      CountPlaceholders [37, 37] = 2 := by
  refine ⟨?_, by decide⟩
  intro f
  induction f with
  | nil => rfl
  | cons c rest ih =>
      by_cases hc : c = 0
      · subst hc
        simp [CountPlaceholders, List.takeWhile_cons, percentCount]
      · simp [CountPlaceholders, List.takeWhile_cons, hc, percentCount, ih]

/-- C10: whenever the remaining format string holds at least as many `%`
markers as there are remaining argument types, every `strstr` scan inside
`FormatArgs` finds a placeholder, so the fault branch for a null `strstr`
result (where the literal-prefix write would be ill-defined) is never
taken. -/
theorem formatArgs_strstr_always_finds (tys : List ArgTy)
    (format buffer : List Nat) (hf : 0 ∉ format)
    (h : tys.length ≤ CountPlaceholders format) :
    (FormatArgs tys format buffer).isSome :=
  formatArgs_isSome tys format buffer hf h

/-- Witness for C10 at one text argument type and format "%". -/
theorem formatArgs_strstr_always_finds_witness :
    (0 : Nat) ∉ [37] ∧
      [ArgTy.cstrTy].length ≤ CountPlaceholders [37] ∧
      (FormatArgs [ArgTy.cstrTy] [37] [97, 0]).isSome :=
  ⟨by decide, by decide,
    formatArgs_strstr_always_finds [ArgTy.cstrTy] [37] [97, 0]
      (by decide) (by decide)⟩

end Detail

end Logger
